import Mathlib

/-!
Verification of the Tesela core subsystem (Storage, Database, Indexer,
SearchEngine) against its natural-language specification.

Rust strings are embedded as `List Char` (`RStr`); byte indices are computed
through the UTF-8 width of each scalar value, so that byte-offset arithmetic
(`str::find`, slicing, `len()`) is modelled exactly.  Fallible operations
return `Except TeselaError`; the file system and the relational database are
explicit states threaded through the operations.  Floating-point boost and
confidence fields are modelled as rationals; no claim proved here depends on
float rounding.
-/

namespace Tesela

/-- Rust `String`/`&str` contents as a list of Unicode scalar values. -/
abbrev RStr := List Char

/-- Convenience conversion from a Lean string literal. -/
def chars (s : String) : RStr := s.toList

/-- Number of bytes of the UTF-8 encoding of one scalar value. -/
def utf8Len (c : Char) : Nat :=
  if c.toNat < 0x80 then 1
  else if c.toNat < 0x800 then 2
  else if c.toNat < 0x10000 then 3
  else 4

/-- Embeds `str::len()`: byte length of the UTF-8 encoding. -/
def byteLen (s : RStr) : Nat := (s.map utf8Len).sum

/-- Unicode simple lowercasing as performed by Rust `str::to_lowercase`,
restricted to the character sets exercised in this development: ASCII, plus
U+0130 LATIN CAPITAL LETTER I WITH DOT ABOVE, whose lowercase form is the
two-scalar sequence U+0069 U+0307 (this is the standard Unicode mapping and
the source of byte-length changes under lowercasing).  All other characters
are mapped to themselves. -/
def lowerChar : Char → RStr
  | 'İ' => ['i', Char.ofNat 0x307]
  | 'A' => ['a']
  | 'B' => ['b']
  | 'C' => ['c']
  | 'D' => ['d']
  | 'E' => ['e']
  | 'F' => ['f']
  | 'G' => ['g']
  | 'H' => ['h']
  | 'I' => ['i']
  | 'J' => ['j']
  | 'K' => ['k']
  | 'L' => ['l']
  | 'M' => ['m']
  | 'N' => ['n']
  | 'O' => ['o']
  | 'P' => ['p']
  | 'Q' => ['q']
  | 'R' => ['r']
  | 'S' => ['s']
  | 'T' => ['t']
  | 'U' => ['u']
  | 'V' => ['v']
  | 'W' => ['w']
  | 'X' => ['x']
  | 'Y' => ['y']
  | 'Z' => ['z']
  | c => [c]

/-- Rust `str::to_lowercase` over the modelled character set. -/
def toLower (s : RStr) : RStr := s.flatMap lowerChar

/-- Rust `str::find(&pat)`: byte index of the first occurrence of `pat`
as a substring, if any. -/
def findSubBytes (hay pat : RStr) : Option Nat :=
  match hay with
  | [] => if pat.isEmpty then some 0 else none
  | c :: rest =>
    if pat.isPrefixOf (c :: rest) then some 0
    else (findSubBytes rest pat).map (fun n => utf8Len c + n)

/-- Rust `str::contains(&pat)` (substring containment). -/
def containsSub (hay pat : RStr) : Bool := (findSubBytes hay pat).isSome

/-- Rust `str::split(sep)` for a one-character separator. -/
def splitOnChar (a : Char) : RStr → List RStr
  | [] => [[]]
  | c :: rest =>
    if c = a then [] :: splitOnChar a rest
    else
      match splitOnChar a rest with
      | [] => [[c]]
      | p :: ps => (c :: p) :: ps

/-- Prepend a character to the first piece of a split result. -/
def consHead (c : Char) : List RStr → List RStr
  | [] => [[c]]
  | p :: ps => (c :: p) :: ps

/-- Rust `str::split("**")`: split on non-overlapping occurrences of the
two-character separator `**`, scanning left to right. -/
def splitOnDoubleStar : RStr → List RStr
  | '*' :: '*' :: rest => [] :: splitOnDoubleStar rest
  | c :: rest => consHead c (splitOnDoubleStar rest)
  | [] => [[]]

/-- Membership of the White_Space property for the characters Rust
`str::trim` strips (the Unicode White_Space set). -/
def isRustWhitespace (c : Char) : Bool :=
  (0x09 ≤ c.val ∧ c.val ≤ 0x0D) ∨ c.val = 0x20 ∨ c.val = 0x85 ∨
    c.val = 0xA0 ∨ c.val = 0x1680 ∨ (0x2000 ≤ c.val ∧ c.val ≤ 0x200A) ∨
    c.val = 0x2028 ∨ c.val = 0x2029 ∨ c.val = 0x202F ∨ c.val = 0x205F ∨
    c.val = 0x3000

/-- Rust `str::trim`. -/
def rustTrim (s : RStr) : RStr :=
  ((s.dropWhile isRustWhitespace).reverse.dropWhile isRustWhitespace).reverse

/-- Strip one trailing carriage return, as Rust `str::lines` does per line. -/
def stripCr (s : RStr) : RStr :=
  match s.getLast? with
  | some '\r' => s.dropLast
  | _ => s

/-- Rust `str::lines()`: split on `\n`, strip a trailing `\r` from each line,
and produce no final empty line for a trailing newline (nor any line for the
empty string). -/
def rustLines (s : RStr) : List RStr :=
  if s = [] then []
  else
    let parts := splitOnChar '\n' s
    let parts := if s.getLast? = some '\n' then parts.dropLast else parts
    parts.map stripCr

/-! ## Error type (src/core/error.rs)

The variants used by the four core components; the remaining variants of
`TeselaError` are never produced by the operations embedded here. -/

/-- The `TeselaError` variants reachable from the embedded operations.
Sources attached to I/O and database errors are dropped: only the variant and
its message are observable in the claims. -/
inductive TeselaError where
  | fileOperation (message : RStr)
  | database (message : RStr)
  | parseError (format message : RStr)
  | attachmentErr (message : RStr)
  | indexErr (message : RStr)
  | searchErr (message : RStr)
  deriving DecidableEq, Repr

/-- Decidable equality of fallible results, so that concrete runs of the
embedded operations can be checked by `decide`. -/
instance instDecEqExcept {ε α : Type} [DecidableEq ε] [DecidableEq α] :
    DecidableEq (Except ε α) := fun x y =>
  match x, y with
  | Except.ok a, Except.ok b =>
    if h : a = b then Decidable.isTrue (by rw [h])
    else Decidable.isFalse (by intro he; cases he; exact h rfl)
  | Except.error a, Except.error b =>
    if h : a = b then Decidable.isTrue (by rw [h])
    else Decidable.isFalse (by intro he; cases he; exact h rfl)
  | Except.ok _, Except.error _ => Decidable.isFalse (by intro he; cases he)
  | Except.error _, Except.ok _ => Decidable.isFalse (by intro he; cases he)

/-! ## Path helpers

Rust `std::path::Path` operations, for paths written with `/` separators
(the only form the core produces). -/

/-- Embeds `Path::file_name`: the final path component. -/
def fileName (p : RStr) : RStr := (splitOnChar '/' p).getLastD []

/-- Split a list at the last occurrence of `a`, returning the parts before
and after it. -/
def rsplitOnce (a : Char) (s : RStr) : Option (RStr × RStr) :=
  match s with
  | [] => none
  | c :: rest =>
    match rsplitOnce a rest with
    | some (pre, suf) => some (c :: pre, suf)
    | none => if c = a then some ([], rest) else none

/-- Embeds `Path::extension`: the part of the file name after its last `.`, absent
when there is no `.` or when the name is a pure dot-file such as
`.gitignore`. -/
def extensionOf (p : RStr) : Option RStr :=
  match rsplitOnce '.' (fileName p) with
  | some (stem, ext) => if stem = [] then none else some ext
  | none => none

/-- Embeds `Path::file_stem`: the file name with its extension removed. -/
def fileStem (p : RStr) : Option RStr :=
  match fileName p with
  | [] => none
  | name =>
    match rsplitOnce '.' name with
    | some (stem, ext) => if stem = [] then some (stem ++ '.' :: ext) else some stem
    | none => some name

/-- Embeds `Path::join` for a relative right operand. -/
def joinPath (base rel : RStr) : RStr :=
  if base = [] then rel
  else if base.getLast? = some '/' then base ++ rel
  else base ++ '/' :: rel

/-! ## Storage data model (src/core/storage.rs) -/

/-- A restricted front-matter value tree mirroring `gray_matter::Pod` in the
shapes `extract_metadata` inspects (strings, arrays, hashes). -/
inductive Pod where
  | str (s : RStr)
  | arr (xs : List Pod)
  | hash (entries : List (RStr × Pod))
  deriving Repr

/-- Embeds `NoteMetadata`: front-matter fields.  The `custom` extension map and the
optional created/modified overrides are carried opaquely; no claim inspects
them beyond equality. -/
structure NoteMetadata where
  title : Option RStr := none
  tags : List RStr := []
  aliases : List RStr := []
  deriving DecidableEq, Repr

/-- Embeds `Attachment`. -/
structure Attachment where
  id : RStr
  filename : RStr
  mimeType : RStr
  size : Nat
  checksum : RStr
  path : RStr
  noteIds : List RStr
  deriving DecidableEq, Repr

/-- Embeds `LinkType`. -/
inductive LinkType where
  | Internal
  | External
  | AttachmentLink
  deriving DecidableEq, Repr

/-- Embeds `Link`: an extracted markdown link. -/
structure Link where
  linkType : LinkType
  target : RStr
  text : RStr
  position : Nat
  deriving DecidableEq, Repr

/-- Embeds `Note`.  The `created_at`/`modified_at` timestamps and the
`attachments` list (always empty in `parse_note`, see `extract_attachments`)
are omitted: no claim depends on them. -/
structure Note where
  id : RStr
  title : RStr
  content : RStr
  body : RStr
  metadata : NoteMetadata
  path : RStr
  checksum : RStr
  deriving DecidableEq, Repr

/-- Embeds `StorageConfig`. -/
structure StorageConfig where
  mosaicRoot : RStr
  notesDir : RStr
  attachmentsDir : RStr
  noteExtensions : List RStr
  maxAttachmentSize : Nat
  deriving DecidableEq, Repr

/-- Embeds `StorageConfig::default()`. -/
def defaultStorageConfig : StorageConfig where
  mosaicRoot := chars "."
  notesDir := chars "notes"
  attachmentsDir := chars "attachments"
  noteExtensions := [chars "md", chars "markdown"]
  maxAttachmentSize := 100 * 1024 * 1024

/-- Models the SHA-256 hex digest of `calculate_checksum`.  The claims rely
only on the digest being a deterministic function of the input bytes, so the
digest is modelled as the tagged content itself. -/
def calculateChecksum (data : RStr) : RStr := chars "sha256:" ++ data

/-! ### Front-matter splitting

Models the `gray_matter` YAML engine for the inputs this development
evaluates: an optional leading block delimited by `---` lines whose fields
are `key: value` scalars or `key: [a, b]` inline string lists.  `parse`
returns the decoded data and the content with the block stripped. -/

/-- Split off the first line (up to a `\n`, which is consumed). -/
def takeLine (s : RStr) : RStr × RStr :=
  match s with
  | [] => ([], [])
  | '\n' :: rest => ([], rest)
  | c :: rest =>
    let (l, r) := takeLine rest
    (c :: l, r)

/-- Collect the lines of a front-matter block up to the closing `---` line;
returns the block's lines and the remaining content, or `none` when no
closing delimiter exists. -/
def matterBlock (fuel : Nat) (s : RStr) : Option (List RStr × RStr) :=
  match fuel with
  | 0 => none
  | fuel + 1 =>
    if s = [] then none
    else
      let (l, rest) := takeLine s
      if l = chars "---" then some ([], rest)
      else
        match matterBlock fuel rest with
        | some (ls, r) => some (l :: ls, r)
        | none => none

/-- Decode one scalar or inline-list YAML value. -/
def yamlValue (v : RStr) : Pod :=
  let v := rustTrim v
  match v with
  | '[' :: rest =>
    if rest.getLast? = some ']' then
      Pod.arr ((splitOnChar ',' rest.dropLast).map (fun x => Pod.str (rustTrim x)))
    else Pod.str v
  | _ => Pod.str v

/-- Decode one `key: value` line. -/
def yamlLine (l : RStr) : Option (RStr × Pod) :=
  match splitOnChar ':' l with
  | key :: rest =>
    if rest = [] then none
    else some (rustTrim key, yamlValue (List.intercalate [':'] rest))
  | [] => none

/-- Embeds `Matter::<YAML>::parse`: split and decode the front-matter block. -/
def matterParse (content : RStr) : Option Pod × RStr :=
  match content with
  | '-' :: '-' :: '-' :: '\n' :: rest =>
    match matterBlock (rest.length + 1) rest with
    | some (ls, body) => (some (Pod.hash (ls.filterMap yamlLine)), body)
    | none => (none, content)
  | _ => (none, content)

/-- Association lookup in a `Pod.hash`, as `map.get(key)`. -/
def podGet (entries : List (RStr × Pod)) (key : RStr) : Option Pod :=
  (entries.find? (fun e => e.1 = key)).map (fun e => e.2)

/-- Embeds `Storage::extract_metadata`: read `title`, `tags` and `aliases` out of
the decoded front-matter, ignoring entries of the wrong shape. -/
def extractMetadata (data : Option Pod) : NoteMetadata :=
  match data with
  | some (Pod.hash m) =>
    { title :=
        match podGet m (chars "title") with
        | some (Pod.str t) => some t
        | _ => none
      tags :=
        match podGet m (chars "tags") with
        | some (Pod.arr ts) =>
          ts.filterMap (fun t => match t with | Pod.str s => some s | _ => none)
        | _ => []
      aliases :=
        match podGet m (chars "aliases") with
        | some (Pod.arr as) =>
          as.filterMap (fun a => match a with | Pod.str s => some s | _ => none)
        | _ => [] }
  | _ => {}

/-- Embeds `Storage::extract_title_from_markdown`, which returns the trimmed text of
the first heading of the parsed markdown.  Modelled for ATX headings whose
text is plain (the inputs evaluated here): the first line consisting of one
to six `#` characters, a space, and the heading text. -/
def extractTitleFromMarkdown (content : RStr) : Option RStr :=
  (rustLines content).findSome? (fun l =>
    let hashes := l.takeWhile (fun c => c = '#')
    if hashes ≠ [] ∧ hashes.length ≤ 6 ∧ (l.drop hashes.length).head? = some ' ' then
      some (rustTrim (l.drop (hashes.length + 1)))
    else none)

/-- Embeds `Storage::parse_note` as a function of the file path and content.  The
file-system timestamp reads of the source only populate the omitted
timestamp fields. -/
def parseNote (cfg : StorageConfig) (path content : RStr) : Except TeselaError Note :=
  let parsed := matterParse content
  let metadata := extractMetadata parsed.1
  let title :=
    match metadata.title with
    | some t => t
    | none =>
      match extractTitleFromMarkdown parsed.2 with
      | some t => t
      | none => (fileStem path).getD (chars "Untitled")
  let checksum := calculateChecksum content
  match fileStem path with
  | none => Except.error (TeselaError.parseError (chars "filename") (chars "Invalid filename"))
  | some id =>
    Except.ok
      { id := id
        title := title
        content := content
        body := parsed.2
        metadata := metadata
        path :=
          if cfg.mosaicRoot.isPrefixOf path ∧ cfg.mosaicRoot ≠ [] then
            (path.drop cfg.mosaicRoot.length).dropWhile (fun c => c = '/')
          else path
        checksum := checksum }

/-! ### File-system state -/

/-- The portion of the file system the storage operations touch: regular
files with their contents, plus the set of directories that exist. -/
structure FsState where
  files : List (RStr × RStr)
  dirs : List RStr
  deriving DecidableEq, Repr

/-- Look up a file's contents. -/
def fsRead (fs : FsState) (path : RStr) : Option RStr :=
  (fs.files.find? (fun e => e.1 = path)).map (fun e => e.2)

/-- Create or overwrite a file. -/
def fsWrite (fs : FsState) (path content : RStr) : FsState :=
  { fs with files := (path, content) :: fs.files.filter (fun e => ¬ e.1 = path) }

/-- Embeds `fs::create_dir_all`. -/
def fsMkdirAll (fs : FsState) (path : RStr) : FsState :=
  { fs with dirs := if path ∈ fs.dirs then fs.dirs else path :: fs.dirs }

/-- Embeds `Storage::save_note`: create the parent directory and write
`note.content` verbatim at the note's path under the mosaic root. -/
def saveNote (cfg : StorageConfig) (fs : FsState) (note : Note) : FsState :=
  let fullPath := joinPath cfg.mosaicRoot note.path
  let fs :=
    match rsplitOnce '/' fullPath with
    | some (parent, _) => fsMkdirAll fs parent
    | none => fs
  fsWrite fs fullPath note.content

/-- Embeds `Storage::load_note`: read the file and parse it. -/
def loadNote (cfg : StorageConfig) (fs : FsState) (path : RStr) : Except TeselaError Note :=
  match fsRead fs path with
  | none => Except.error (TeselaError.fileOperation (chars "Failed to read note file"))
  | some content => parseNote cfg path content

/-- Embeds `mime_guess::from_path(..).first_or_octet_stream()`, modelled for the
extensions exercised here. -/
def mimeFromPath (p : RStr) : RStr :=
  match extensionOf p with
  | some e =>
    if e = chars "txt" then chars "text/plain"
    else if e = chars "png" then chars "image/png"
    else chars "application/octet-stream"
  | none => chars "application/octet-stream"

/-- Embeds `Storage::generate_attachment_id`: millisecond timestamp and the
filename with spaces replaced by underscores. -/
def generateAttachmentId (nowMillis : Nat) (filename : RStr) : RStr :=
  chars (toString nowMillis) ++ '_' :: filename.map (fun c => if c = ' ' then '_' else c)

/-- Embeds `Storage::add_attachment`: validate existence and the size ceiling, then
copy the source into the per-note attachment namespace and build the
`Attachment` record.  Returns the final file-system state together with the
result. -/
def addAttachment (cfg : StorageConfig) (fs : FsState) (sourcePath noteId : RStr)
    (nowMillis : Nat) : FsState × Except TeselaError Attachment :=
  match fsRead fs sourcePath with
  | none => (fs, Except.error (TeselaError.fileOperation (chars "Source file does not exist")))
  | some content =>
    let size := byteLen content
    if size > cfg.maxAttachmentSize then
      (fs, Except.error (TeselaError.attachmentErr
        (chars "File size " ++ chars (toString size) ++
          chars " exceeds maximum allowed size " ++ chars (toString cfg.maxAttachmentSize))))
    else
      match fileName sourcePath with
      | [] => (fs, Except.error (TeselaError.fileOperation (chars "Invalid filename")))
      | filename =>
        let id := generateAttachmentId nowMillis filename
        let destDir := joinPath (joinPath cfg.mosaicRoot cfg.attachmentsDir) noteId
        let fs := fsMkdirAll fs destDir
        let destPath := joinPath destDir filename
        let fs := fsWrite fs destPath content
        let checksum := calculateChecksum content
        (fs, Except.ok
          { id := id
            filename := filename
            mimeType := mimeFromPath destPath
            size := size
            checksum := checksum
            path :=
              if cfg.mosaicRoot.isPrefixOf destPath ∧ cfg.mosaicRoot ≠ [] then
                (destPath.drop cfg.mosaicRoot.length).dropWhile (fun c => c = '/')
              else destPath
            noteIds := [noteId] })

/-! ## Markdown event stream and link extraction (src/core/storage.rs)

`extract_links` walks the `pulldown_cmark` event stream.  The event stream is
modelled for the class of bodies analysed here: a single paragraph whose only
markup is inline links `[text](dest)` (without quoted titles).  For such
input `pulldown_cmark` produces `Start(Paragraph)`, then alternating merged
`Text` runs and `Start(Link)/Text/End(Link)` triples, then
`End(Paragraph)`; the `title` component of `Tag::Link` is empty. -/

/-- The markdown tags relevant to link extraction. -/
inductive MdTag where
  | paragraph
  | link (dest title : RStr)
  deriving DecidableEq, Repr

/-- One `pulldown_cmark::Event`. -/
inductive MdEvent where
  | start (t : MdTag)
  | stop (t : MdTag)
  | text (s : RStr)
  deriving DecidableEq, Repr

/-- Split a list at the first occurrence of `a`, which is consumed. -/
def takeUntilChar (a : Char) : RStr → Option (RStr × RStr)
  | [] => none
  | c :: rest =>
    if c = a then some ([], rest)
    else (takeUntilChar a rest).map (fun p => (c :: p.1, p.2))

/-- Parse the remainder of an inline link after its `[`: the display text up
to `]`, then `(`, then the destination up to `)`. -/
def parseInlineLink (s : RStr) : Option (RStr × RStr × RStr) :=
  match takeUntilChar ']' s with
  | none => none
  | some (txt, rest1) =>
    match rest1 with
    | '(' :: rest2 =>
      match takeUntilChar ')' rest2 with
      | none => none
      | some (dest, rest3) => some (txt, dest, rest3)
    | _ => none

/-- Prepend a character to a leading `Text` event, merging text runs. -/
def textPrepend (c : Char) : List MdEvent → List MdEvent
  | MdEvent.text s :: evs => MdEvent.text (c :: s) :: evs
  | evs => MdEvent.text [c] :: evs

/-- The inline events of one paragraph (fuel-indexed scanner; the fuel is
always at least the input length plus one at the call site). -/
def inlineEvents : Nat → RStr → List MdEvent
  | 0, _ => []
  | _, [] => []
  | fuel + 1, '[' :: rest =>
    match parseInlineLink rest with
    | some (txt, dest, rest1) =>
      MdEvent.start (MdTag.link dest []) :: MdEvent.text txt ::
        MdEvent.stop (MdTag.link dest []) :: inlineEvents fuel rest1
    | none => textPrepend '[' (inlineEvents fuel rest)
  | fuel + 1, c :: rest => textPrepend c (inlineEvents fuel rest)

/-- Embeds `pulldown_cmark::Parser::new(content)` as an event list, for
single-paragraph bodies. -/
def mdEvents (content : RStr) : List MdEvent :=
  if content = [] then []
  else
    MdEvent.start MdTag.paragraph ::
      (inlineEvents (content.length + 1) content ++ [MdEvent.stop MdTag.paragraph])

/-- The link classification of `extract_links`: `http(s)://` targets are
External, `attachment:`/`file:` targets are Attachment, all others
Internal. -/
def classifyLink (dest : RStr) : LinkType :=
  if (chars "http://").isPrefixOf dest ∨ (chars "https://").isPrefixOf dest then
    LinkType.External
  else if (chars "attachment:").isPrefixOf dest ∨ (chars "file:").isPrefixOf dest then
    LinkType.AttachmentLink
  else LinkType.Internal

/-- The event loop of `extract_links`: `position` counts every event, and a
`Start(Link)` event pushes a `Link` carrying the current count.  The `text`
field receives the link's *title* component, exactly as the source does. -/
def extractLinksGo (pos : Nat) : List MdEvent → List Link
  | [] => []
  | e :: rest =>
    match e with
    | MdEvent.start (MdTag.link dest title) =>
      { linkType := classifyLink dest, target := dest, text := title, position := pos } ::
        extractLinksGo (pos + 1) rest
    | _ => extractLinksGo (pos + 1) rest

/-- Embeds `Storage::extract_links`. -/
def extractLinks (content : RStr) : List Link :=
  extractLinksGo 0 (mdEvents content)

/-! ## Database (src/core/database.rs)

The relational state is the five tables the claims touch, with the schema of
`Database::initialize`: `notes` keyed by `id`, deduplicated `tags`, the
`note_tags` and `note_attachments` junctions, and `links` keyed by source
note.  The junctions and `links` declare `ON DELETE CASCADE` on their
`note_id`/`source_note_id` foreign keys (enforced: the connection options
enable foreign keys), so deleting a note row removes its dependent rows. -/

/-- One row of `links` (the autoincrement surrogate id is omitted; no claim
reads it). -/
structure LinkRow where
  sourceNoteId : RStr
  target : RStr
  linkType : RStr
  text : RStr
  position : Nat
  deriving DecidableEq, Repr

/-- The database state. -/
structure DbState where
  notes : List Note
  tags : List (Nat × RStr)
  noteTags : List (RStr × Nat)
  links : List LinkRow
  attachments : List Attachment
  noteAttachments : List (RStr × RStr)
  deriving DecidableEq, Repr

/-- Referential integrity of the rows cascading from `notes`: every
`note_tags`/`note_attachments` junction row and every `links` row names an
existing note.  `Database::initialize` enforces this through the foreign-key
constraints. -/
def dbIntegrity (st : DbState) : Prop :=
  (∀ r ∈ st.noteTags, ∃ n ∈ st.notes, n.id = r.1) ∧
  (∀ r ∈ st.noteAttachments, ∃ n ∈ st.notes, n.id = r.1) ∧
  (∀ l ∈ st.links, ∃ n ∈ st.notes, n.id = l.sourceNoteId)

/-- Embeds `Database::delete_note`: `DELETE FROM notes WHERE id = ?`.  When a note
row is deleted, the `ON DELETE CASCADE` clauses remove its junction rows and
its outgoing links; when no row matches, nothing changes.  The operation
never fails. -/
def deleteNote (st : DbState) (id : RStr) : DbState :=
  if st.notes.any (fun n => n.id = id) then
    { st with
      notes := st.notes.filter (fun n => ¬ n.id = id)
      noteTags := st.noteTags.filter (fun r => ¬ r.1 = id)
      links := st.links.filter (fun l => ¬ l.sourceNoteId = id)
      noteAttachments := st.noteAttachments.filter (fun r => ¬ r.1 = id) }
  else st

/-- The stored `link_type` text of `update_note_links`. -/
def linkTypeText : LinkType → RStr
  | LinkType.Internal => chars "internal"
  | LinkType.External => chars "external"
  | LinkType.AttachmentLink => chars "attachment"

/-- Embeds `Database::update_note_links`: delete-then-insert of the note's link
rows in one transaction. -/
def updateNoteLinks (st : DbState) (noteId : RStr) (links : List Link) : DbState :=
  { st with
    links :=
      st.links.filter (fun l => ¬ l.sourceNoteId = noteId) ++
        links.map (fun l =>
          { sourceNoteId := noteId, target := l.target, linkType := linkTypeText l.linkType
            text := l.text, position := l.position }) }

/-- Embeds `Database::get_backlinks`: `SELECT DISTINCT source_note_id FROM links
WHERE target = ? AND link_type = 'internal'` (first occurrence kept). -/
def getBacklinks (st : DbState) (noteId : RStr) : List RStr :=
  ((st.links.filter (fun l => l.target = noteId ∧ l.linkType = chars "internal")).map
    (fun l => l.sourceNoteId)).dedup

/-! ## Indexer (src/core/indexer.rs) -/

/-- Embeds `IndexerConfig`. -/
structure IndexerConfig where
  debounceInterval : Nat
  maxFileSize : Nat
  batchSize : Nat
  indexHidden : Bool
  excludePatterns : List RStr
  extractAttachmentContent : Bool
  deriving DecidableEq, Repr

/-- Embeds `IndexerConfig::default()`. -/
def defaultIndexerConfig : IndexerConfig where
  debounceInterval := 500
  maxFileSize := 10 * 1024 * 1024
  batchSize := 50
  indexHidden := false
  excludePatterns := [chars "*.tmp", chars "*.bak", chars ".git/**", chars "**/.DS_Store"]
  extractAttachmentContent := false

/-- Embeds `IndexEvent`. -/
inductive IndexEvent where
  | noteIndexed (path noteId : RStr)
  | noteRemoved (path noteId : RStr)
  | rebuildStarted
  | rebuildCompleted (notesProcessed : Nat)
  | indexError (path error : RStr)
  deriving DecidableEq, Repr

/-- One write issued to the Database by the indexing path. -/
inductive DbWrite where
  | upsertNote (note : Note)
  | updateNoteLinksW (noteId : RStr) (links : List Link)
  deriving DecidableEq, Repr

/-- Checksum-cache lookup (`HashMap::get`). -/
def cacheGet (cache : List (RStr × RStr)) (path : RStr) : Option RStr :=
  (cache.find? (fun e => e.1 = path)).map (fun e => e.2)

/-- Checksum-cache insertion (`HashMap::insert`; the new binding shadows any
old one). -/
def cacheInsert (cache : List (RStr × RStr)) (path checksum : RStr) : List (RStr × RStr) :=
  (path, checksum) :: cache

/-- The outcome of one `index_file` call: the updated checksum cache, the
Database writes performed, and the events emitted. -/
structure IndexFileOutcome where
  cache : List (RStr × RStr)
  dbWrites : List DbWrite
  events : List IndexEvent
  deriving DecidableEq, Repr

/-- Embeds `Indexer::index_file`: load and parse the note, compare its checksum
with the cached one, and either return unchanged or extract links, write
`upsert_note` + `update_note_links`, refresh the cache, and emit
`NoteIndexed`. -/
def indexFile (cfg : StorageConfig) (fs : FsState) (path : RStr)
    (cache : List (RStr × RStr)) : Except TeselaError IndexFileOutcome :=
  match loadNote cfg fs path with
  | Except.error e => Except.error e
  | Except.ok note =>
    let needsUpdate :=
      match cacheGet cache path with
      | none => true
      | some old => decide (old ≠ note.checksum)
    if needsUpdate then
      let links := extractLinks note.body
      Except.ok
        { cache := cacheInsert cache path note.checksum
          dbWrites := [DbWrite.upsertNote note, DbWrite.updateNoteLinksW note.id links]
          events := [IndexEvent.noteIndexed path note.id] }
    else
      Except.ok { cache := cache, dbWrites := [], events := [] }

/-! ### Glob matching and the indexing predicate -/

/-- Embeds `glob_match` (src/core/indexer.rs).  A pattern containing `**` is split
on it; with exactly two parts the text must start with the literal part
before `**` and end with the part after it (after dropping a leading `/`,
and dropping a leading `*` of that remainder as well).  Otherwise a pattern
containing a single `*` requires its literal prefix at the start and its
literal suffix at the end of the text, and any other pattern must equal the
text.  Both wildcard forms compare raw characters, so they match across `/`
separators. -/
def globMatch (pat text : RStr) : Bool :=
  if containsSub pat (chars "**") then
    match splitOnDoubleStar pat with
    | [pre, suf] =>
      let sufToMatch := if suf.head? = some '/' then suf.tail else suf
      if pre.isPrefixOf text then
        if sufToMatch.head? = some '*' then sufToMatch.tail.isSuffixOf text
        else sufToMatch.isSuffixOf text
      else false
    | _ => globMatchSingle pat text
  else globMatchSingle pat text
where
  /-- The single-`*` and literal fallthrough of `glob_match`. -/
  globMatchSingle (pat text : RStr) : Bool :=
    if pat.contains '*' then
      match splitOnChar '*' pat with
      | [pre, suf] => pre.isPrefixOf text && suf.isSuffixOf text
      | _ => pat == text
    else pat == text

/-- The file-system facts `should_index_file_with_config` consults about a
path. -/
structure FileInfo where
  path : RStr
  isFile : Bool
  size : Nat
  deriving DecidableEq, Repr

/-- Embeds `Indexer::should_index_file_with_config`: regular file, `md`/`markdown`
extension, not hidden (unless enabled), within the size ceiling, and not
matched by any exclusion pattern. -/
def shouldIndexFileWithConfig (fi : FileInfo) (cfg : IndexerConfig) : Bool :=
  if ¬ fi.isFile then false
  else if ¬ (extensionOf fi.path = some (chars "md") ∨
             extensionOf fi.path = some (chars "markdown")) then false
  else if ¬ cfg.indexHidden ∧ (fileName fi.path).head? = some '.' then false
  else if fi.size > cfg.maxFileSize then false
  else ¬ cfg.excludePatterns.any (fun p => globMatch p fi.path)

/-! ## SearchEngine (src/core/search.rs)

Scores, weights and confidences are `f32` in the source; they are modelled
as rationals.  None of the claims settled here depends on floating-point
rounding: the only numeric facts used are that the history-suggestion
confidence is the constant `0.7` and that sorting a list is order-preserving
on the concrete inputs evaluated. -/

/-- Embeds `QueryType` (the `DateRange`/`Combined` variants are unreachable from
`parse_query` and omitted). -/
inductive QueryType where
  | fullText (q : RStr)
  | tag (t : RStr)
  | title (t : RStr)
  deriving DecidableEq, Repr

/-- Embeds `SearchCriteria`. -/
structure SearchCriteria where
  queryType : QueryType
  weight : ℚ
  required : Bool
  deriving DecidableEq, Repr

/-- Embeds `SearchConfig`. -/
structure SearchConfig where
  maxResults : Nat
  contextLines : Nat
  fuzzySearch : Bool
  fuzzyThreshold : ℚ
  highlightMatchesEnabled : Bool
  titleBoost : ℚ
  recencyBoost : ℚ
  enableSuggestions : Bool
  maxSuggestions : Nat
  deriving DecidableEq, Repr

/-- Embeds `SearchConfig::default()`. -/
def defaultSearchConfig : SearchConfig where
  maxResults := 50
  contextLines := 2
  fuzzySearch := true
  fuzzyThreshold := 6 / 10
  highlightMatchesEnabled := true
  titleBoost := 2
  recencyBoost := 1 / 10
  enableSuggestions := true
  maxSuggestions := 5

/-- Embeds `MatchType`. -/
inductive MatchType where
  | Title
  | Body
  | Tag
  | Metadata
  deriving DecidableEq, Repr

/-- Embeds `SearchMatch`. -/
structure SearchMatch where
  matchType : MatchType
  content : RStr
  lineNumber : Nat
  startOffset : Nat
  endOffset : Nat
  contextBefore : RStr
  contextAfter : RStr
  deriving DecidableEq, Repr

/-- Embeds `SearchResult`. -/
structure SearchResult where
  note : Note
  score : ℚ
  matchesFound : List SearchMatch
  highlightedContent : Option RStr
  deriving DecidableEq, Repr

/-- Embeds `SuggestionType`. -/
inductive SuggestionType where
  | query
  | tagSuggestion
  | titleSuggestion
  | correction
  deriving DecidableEq, Repr

/-- Embeds `SearchSuggestion`. -/
structure SearchSuggestion where
  suggestion : RStr
  suggestionType : SuggestionType
  confidence : ℚ
  deriving DecidableEq, Repr

/-- Embeds `SearchEngine::parse_query`: trim; reject the empty query with a Search
error; `tag:`/`title:` prefixes select tag and title criteria, everything
else is full text. -/
def parseQuery (cfg : SearchConfig) (query : RStr) : Except TeselaError (List SearchCriteria) :=
  let trimmed := rustTrim query
  if trimmed = [] then
    Except.error (TeselaError.searchErr (chars "Empty search query"))
  else if (chars "tag:").isPrefixOf trimmed then
    Except.ok [{ queryType := QueryType.tag (rustTrim (trimmed.drop 4))
                 weight := 1, required := true }]
  else if (chars "title:").isPrefixOf trimmed then
    Except.ok [{ queryType := QueryType.title (rustTrim (trimmed.drop 6))
                 weight := cfg.titleBoost, required := true }]
  else
    Except.ok [{ queryType := QueryType.fullText trimmed, weight := 1, required := true }]

/-- The history push at the top of `SearchEngine::search`: append the query,
then drop the front element when the length exceeds 100. -/
def pushHistory (hist : List RStr) (q : RStr) : List RStr :=
  let h := hist ++ [q]
  if h.length > 100 then h.drop 1 else h

/-- Embeds `SearchEngine::search`: push the query onto the history, parse it, and
on success run the criteria against the database (`execute_search`, whose
database interaction is abstracted as the `exec` argument).  Returns the new
history together with the result. -/
def searchOp (cfg : SearchConfig) (hist : List RStr) (q : RStr)
    (exec : List SearchCriteria → Except TeselaError (List SearchResult)) :
    List RStr × Except TeselaError (List SearchResult) :=
  let hist1 := pushHistory hist q
  match parseQuery cfg q with
  | Except.error e => (hist1, Except.error e)
  | Except.ok crit => (hist1, exec crit)

/-- The tag-suggestion confidence: `1.0` on an exact length match, otherwise
`0.8 - (tag.len() - partial.len()) * 0.1` clamped below at `0.1`.  The
length difference is the source's `usize` subtraction, defined here as
truncated subtraction (for the inputs analysed the tag is never shorter than
the partial query). -/
def tagConfidence (tagLen partialLen : Nat) : ℚ :=
  if tagLen = partialLen then 1
  else max (8 / 10 - (tagLen - partialLen : ℕ) * (1 / 10)) (1 / 10)

/-- Stable insertion into a descending-confidence list: an element moves
past exactly the elements of strictly larger confidence, matching the
stable `sort_by` on `b.confidence.partial_cmp(&a.confidence)`. -/
def insertByConfidence (x : SearchSuggestion) : List SearchSuggestion → List SearchSuggestion
  | [] => [x]
  | y :: ys =>
    if x.confidence ≥ y.confidence then x :: y :: ys
    else y :: insertByConfidence x ys

/-- The stable descending sort of `get_suggestions`. -/
def sortByConfidence : List SearchSuggestion → List SearchSuggestion
  | [] => []
  | x :: xs => insertByConfidence x (sortByConfidence xs)

/-- Embeds `SearchEngine::get_suggestions`: below two bytes of partial query (or
with suggestions disabled) nothing is suggested; otherwise tag names and
prior history queries whose lowercase form starts with the lowercase partial
are collected, confidence-scored, sorted descending and truncated.  The tag
map handed back by the database is passed in as `tags`. -/
def getSuggestions (cfg : SearchConfig) (tags : List (RStr × Nat)) (hist : List RStr)
    (partialQuery : RStr) : List SearchSuggestion :=
  if ¬ cfg.enableSuggestions ∨ byteLen partialQuery < 2 then []
  else
    let tagSugs := tags.filterMap (fun t =>
      if (toLower partialQuery).isPrefixOf (toLower t.1) then
        some { suggestion := chars "tag:" ++ t.1
               suggestionType := SuggestionType.tagSuggestion
               confidence := tagConfidence (byteLen t.1) (byteLen partialQuery) }
      else none)
    let histSugs := hist.filterMap (fun q =>
      if (toLower partialQuery).isPrefixOf (toLower q) ∧ q ≠ partialQuery then
        some { suggestion := q, suggestionType := SuggestionType.query, confidence := 7 / 10 }
      else none)
    (sortByConfidence (tagSugs ++ histSugs)).take cfg.maxSuggestions

/-! ### Match location and highlighting -/

/-- The body-line scan of `find_matches_in_note`: for each line (0-based
index `i`) whose lowercase form contains the lowercase query, push a Body
match whose stored line number is `i + 1`, whose offsets are the byte index
of the query in the lowercase line and that index plus the query's byte
length, and whose context is the previous and next line. -/
def bodyMatches (lines : List RStr) (q : RStr) : List SearchMatch :=
  lines.enum.filterMap (fun p =>
    let i := p.1
    let line := p.2
    if containsSub (toLower line) (toLower q) then
      let startOffset := (findSubBytes (toLower line) (toLower q)).getD 0
      some { matchType := MatchType.Body
             content := line
             lineNumber := i + 1
             startOffset := startOffset
             endOffset := startOffset + byteLen q
             contextBefore := if i > 0 then lines.getD (i - 1) [] else []
             contextAfter := if i < lines.length - 1 then lines.getD (i + 1) [] else [] }
    else none)

/-- Embeds `SearchEngine::find_matches_in_note`: a Title match when the lowercase
title contains the lowercase query, the per-line Body matches, and a Tag
match per tag containing the query. -/
def findMatchesInNote (note : Note) (q : RStr) : List SearchMatch :=
  let ql := toLower q
  (if containsSub (toLower note.title) ql then
    [{ matchType := MatchType.Title, content := note.title, lineNumber := 0
       startOffset := 0, endOffset := byteLen note.title
       contextBefore := [], contextAfter := [] }]
   else []) ++
  bodyMatches (rustLines note.body) q ++
  note.metadata.tags.filterMap (fun tag =>
    if containsSub (toLower tag) ql then
      some { matchType := MatchType.Tag, content := tag, lineNumber := 0
             startOffset := 0, endOffset := byteLen tag
             contextBefore := [], contextAfter := [] }
    else none)

/-- Drop the first `n` bytes of a string; `none` when `n` is not on a
character boundary (a Rust slice `&s[n..]` panics there). -/
def dropBytes : RStr → Nat → Option RStr
  | s, 0 => some s
  | [], _ + 1 => none
  | c :: rest, n + 1 =>
    if utf8Len c ≤ n + 1 then dropBytes rest (n + 1 - utf8Len c) else none

/-- Take the first `n` bytes of a string; `none` when `n` is not on a
character boundary (a Rust slice `&s[..n]` panics there). -/
def takeBytes : RStr → Nat → Option RStr
  | _, 0 => some []
  | [], _ + 1 => none
  | c :: rest, n + 1 =>
    if utf8Len c ≤ n + 1 then (takeBytes rest (n + 1 - utf8Len c)).map (fun t => c :: t)
    else none

/-- Embeds `SearchEngine::highlight_matches`: find the lowercase query in the
lowercase content and wrap the byte range `start .. start + query.len()` of
the *original* content in `**` markers.  The byte indices come from the
lowercased content, so the slices can fall outside the original content or
off a character boundary; that panic is modelled as `none`. -/
def highlightMatches (content q : RStr) : Option RStr :=
  match findSubBytes (toLower content) (toLower q) with
  | none => some content
  | some start =>
    let stop := start + byteLen q
    match takeBytes content start, dropBytes content start with
    | some before, some rest =>
      match takeBytes rest (stop - start), dropBytes rest (stop - start) with
      | some matched, some after =>
        some (before ++ chars "**" ++ matched ++ chars "**" ++ after)
      | _, _ => none
    | _, _ => none

/-! ## Spec-side glob semantics and concrete witness inputs -/

inductive GlobTok where
  | lit (c : Char)
  | star
  | dstar
  deriving DecidableEq, Repr

def globToks : RStr → List GlobTok
  | [] => []
  | '*' :: '*' :: rest => GlobTok.dstar :: globToks rest
  | '*' :: rest => GlobTok.star :: globToks rest
  | c :: rest => GlobTok.lit c :: globToks rest

def specGlobCore : List GlobTok → RStr → Bool
  | [], t => t.isEmpty
  | GlobTok.lit _ :: _, [] => false
  | GlobTok.lit c :: ps, d :: t => c = d && specGlobCore ps t
  | GlobTok.star :: ps, t =>
    (List.range (t.length + 1)).any (fun k =>
      (t.take k).all (fun c => ¬ c = '/') && specGlobCore ps (t.drop k))
  | GlobTok.dstar :: ps, t =>
    (List.range (t.length + 1)).any (fun k => specGlobCore ps (t.drop k))

def specGlobMatch (pat text : RStr) : Bool := specGlobCore (globToks pat) text

/-- Configuration for the C1 witness: a 10-byte attachment ceiling. -/
def c1cfg : StorageConfig := { defaultStorageConfig with maxAttachmentSize := 10 }

/-- File system for the C1 witness: one oversized source file. -/
def c1fs : FsState where
  files := [(chars "large.txt", chars "This is more than 10 bytes")]
  dirs := []

/-- File system for the C2 witness: one parseable note. -/
def c2fs : FsState where
  files := [(chars "notes/a.md", chars "# A\nBody")]
  dirs := []

/-- The outcome of the first C2 `index_file` call. -/
def c2outcome : IndexFileOutcome :=
  match indexFile defaultStorageConfig c2fs (chars "notes/a.md") [] with
  | Except.ok o => o
  | Except.error _ => { cache := [], dbWrites := [], events := [] }

/-- Database state for the C3 witness: note `a` links to note `b` and
carries a tag and an attachment junction row. -/
def c3st : DbState where
  notes := [{ id := chars "a", title := chars "A", content := [], body := [],
              metadata := {}, path := chars "notes/a.md", checksum := [] },
            { id := chars "b", title := chars "B", content := [], body := [],
              metadata := {}, path := chars "notes/b.md", checksum := [] }]
  tags := [(1, chars "rust")]
  noteTags := [(chars "a", 1)]
  links := [{ sourceNoteId := chars "a", target := chars "b",
              linkType := chars "internal", text := chars "b", position := 0 }]
  attachments := []
  noteAttachments := [(chars "a", chars "att1")]

/-- A note whose `content` field is inconsistent with its `title` and
`body`: `save_note` writes `content` verbatim, so the reconstruction cannot
see the stored `title`/`body` values. -/
def c4badNote : Note where
  id := chars "n"
  title := chars "A"
  content := []
  body := chars "B"
  metadata := {}
  path := chars "notes/n.md"
  checksum := []

/-- The empty file-system state. -/
def emptyFs : FsState where
  files := []
  dirs := []

/-- The note read back after saving `c4badNote`. -/
def c4reparsed : Note :=
  match loadNote defaultStorageConfig (saveNote defaultStorageConfig emptyFs c4badNote)
      (joinPath defaultStorageConfig.mosaicRoot c4badNote.path) with
  | Except.ok n => n
  | Except.error _ =>
    { id := [], title := [], content := [], body := [], metadata := {}, path := [], checksum := [] }

/-- A consistent note for the C4 witness, as produced by `parse_note`. -/
def c4goodNote : Note :=
  match parseNote defaultStorageConfig (chars "./notes/simple.md")
      (chars "# My Note\n\nSimple.") with
  | Except.ok n => n
  | Except.error _ =>
    { id := [], title := [], content := [], body := [], metadata := {}, path := [], checksum := [] }

/-- A one-line note for the C7 counterexample. -/
def c7note : Note where
  id := chars "n"
  title := chars "x"
  content := chars "hello"
  body := chars "hello"
  metadata := {}
  path := chars "notes/n.md"
  checksum := []

/-- Indexer configuration for the C6 counterexample. -/
def c6cfg : IndexerConfig :=
  { defaultIndexerConfig with excludePatterns := [chars "notes/a*.md"] }

/-- File facts for the C6 counterexample: a regular markdown file in a
subdirectory. -/
def c6fi : FileInfo where
  path := chars "notes/a/b.md"
  isFile := true
  size := 0

/-! ## Shared lemmas -/

/-- Reading back a freshly written file yields the written content. -/
theorem fsRead_fsWrite_self (fs : FsState) (p c : RStr) :
    fsRead (fsWrite fs p c) p = some c := by
  simp [fsRead, fsWrite, List.find?]

/-- Cache lookups see a fresh insertion. -/
theorem cacheGet_cacheInsert_self (cache : List (RStr × RStr)) (p ck : RStr) :
    cacheGet (cacheInsert cache p ck) p = some ck := by
  simp [cacheGet, cacheInsert, List.find?]

/-- Trimming a string of whitespace characters yields the empty string. -/
theorem rustTrim_all_whitespace (q : RStr) (h : ∀ c ∈ q, isRustWhitespace c = true) :
    rustTrim q = [] := by
  unfold rustTrim
  have h1 : q.dropWhile isRustWhitespace = [] := List.dropWhile_eq_nil_iff.mpr h
  simp [h1]

/-! ## C1: oversize attachments are rejected before any copy -/

/-- C1.  For every source file whose size exceeds the configured
`max_attachment_size`, `add_attachment` fails with an Attachment error and
performs no file-system mutation: the state is returned unchanged, so in
particular the per-note destination file does not exist afterwards unless it
already did. -/
theorem addAttachment_oversize_rejected (cfg : StorageConfig) (fs : FsState)
    (src noteId : RStr) (now : Nat) (content : RStr)
    (hsrc : fsRead fs src = some content)
    (hsize : byteLen content > cfg.maxAttachmentSize) :
    (addAttachment cfg fs src noteId now).1 = fs ∧
    (addAttachment cfg fs src noteId now).2 =
      Except.error (TeselaError.attachmentErr
        (chars "File size " ++ chars (toString (byteLen content)) ++
          chars " exceeds maximum allowed size " ++ chars (toString cfg.maxAttachmentSize))) ∧
    (∀ p, fsRead fs p = none → fsRead (addAttachment cfg fs src noteId now).1 p = none) := by
  unfold addAttachment
  rw [hsrc]
  simp only [if_pos hsize]
  exact ⟨by trivial, by trivial, fun p hp => hp⟩

/-- Witness for C1 at a concrete oversized file. -/
theorem addAttachment_oversize_rejected_witness :
    (addAttachment c1cfg c1fs (chars "large.txt") (chars "note-123") 0).1 = c1fs :=
  (addAttachment_oversize_rejected c1cfg c1fs (chars "large.txt") (chars "note-123") 0
    (chars "This is more than 10 bytes") (by decide) (by decide)).1

/-! ## C2: index_file is a no-op on an unchanged file -/

/-- C2.  After any successful `index_file` call, a second call on the
unchanged file (its content untouched, so the checksum cache holds an equal
checksum for the path) performs zero Database writes, leaves the checksum
cache unchanged, and emits no event. -/
theorem indexFile_unchanged_noop (cfg : StorageConfig) (fs : FsState) (path : RStr)
    (cache : List (RStr × RStr)) (o : IndexFileOutcome)
    (h : indexFile cfg fs path cache = Except.ok o) :
    indexFile cfg fs path o.cache =
      Except.ok { cache := o.cache, dbWrites := [], events := [] } := by
  unfold indexFile at h ⊢
  cases hl : loadNote cfg fs path with
  | error e => rw [hl] at h; exact absurd h (by simp)
  | ok note =>
    rw [hl] at h
    have hcache : cacheGet o.cache path = some note.checksum := by
      cases hc : cacheGet cache path with
      | none =>
        rw [hc] at h
        simp at h
        subst h
        exact cacheGet_cacheInsert_self cache path note.checksum
      | some old =>
        rw [hc] at h
        by_cases hov : old = note.checksum
        · subst hov
          simp at h
          subst h
          exact hc
        · simp [hov] at h
          subst h
          exact cacheGet_cacheInsert_self cache path note.checksum
    rw [hcache]
    simp

/-- Witness for C2: the second call on the unchanged file is a no-op. -/
theorem indexFile_unchanged_noop_witness :
    indexFile defaultStorageConfig c2fs (chars "notes/a.md") c2outcome.cache =
      Except.ok { cache := c2outcome.cache, dbWrites := [], events := [] } :=
  indexFile_unchanged_noop defaultStorageConfig c2fs (chars "notes/a.md") [] c2outcome rfl

/-! ## C3: delete_note cascades and is idempotent -/

/-- C3.  For every stored note id, `delete_note` removes the note row, all
`note_tags` and `note_attachments` junction rows carrying that id, and all
`links` rows whose source is that id — so `get_backlinks` of any target no
longer lists it; and on an absent id the call succeeds silently, leaving the
state unchanged. -/
theorem deleteNote_cascades_and_idempotent (st : DbState) (id : RStr) :
    (st.notes.any (fun n => n.id = id) = true →
      (∀ n ∈ (deleteNote st id).notes, n.id ≠ id) ∧
      (∀ r ∈ (deleteNote st id).noteTags, r.1 ≠ id) ∧
      (∀ r ∈ (deleteNote st id).noteAttachments, r.1 ≠ id) ∧
      (∀ l ∈ (deleteNote st id).links, l.sourceNoteId ≠ id) ∧
      (∀ target, id ∉ getBacklinks (deleteNote st id) target)) ∧
    ((∀ n ∈ st.notes, n.id ≠ id) → deleteNote st id = st) := by
  constructor
  · intro hpresent
    unfold deleteNote
    rw [if_pos hpresent]
    refine ⟨?_, ?_, ?_, ?_, ?_⟩
    · intro n hn
      have hn' : n ∈ st.notes.filter (fun n => decide ¬ n.id = id) := hn
      simpa using (List.mem_filter.mp hn').2
    · intro r hr
      have hr' : r ∈ st.noteTags.filter (fun r => decide ¬ r.1 = id) := hr
      simpa using (List.mem_filter.mp hr').2
    · intro r hr
      have hr' : r ∈ st.noteAttachments.filter (fun r => decide ¬ r.1 = id) := hr
      simpa using (List.mem_filter.mp hr').2
    · intro l hl
      have hl' : l ∈ st.links.filter (fun l => decide ¬ l.sourceNoteId = id) := hl
      simpa using (List.mem_filter.mp hl').2
    · intro target hmem
      unfold getBacklinks at hmem
      rw [List.mem_dedup] at hmem
      obtain ⟨l, hl, hsrc⟩ := List.mem_map.mp hmem
      have hl2 := List.mem_filter.mp hl
      have hl3 : l ∈ st.links.filter (fun l => decide ¬ l.sourceNoteId = id) := hl2.1
      have : l.sourceNoteId ≠ id := by simpa using (List.mem_filter.mp hl3).2
      exact this hsrc
  · intro habsent
    unfold deleteNote
    rw [if_neg]
    simp only [List.any_eq_true, not_exists, not_and]
    intro n hn
    simpa using habsent n hn

/-- Witness for C3: after deleting note `a`, `get_backlinks b` no longer
lists it. -/
theorem deleteNote_cascades_witness :
    chars "a" ∉ getBacklinks (deleteNote c3st (chars "a")) (chars "b") :=
  ((deleteNote_cascades_and_idempotent c3st (chars "a")).1 (by decide)).2.2.2.2 (chars "b")

/-! ## C5: empty or whitespace-only queries fail with a Search error -/

/-- C5.  For every query consisting only of whitespace (including the empty
query), `SearchEngine::search` fails with the Search error produced by
`parse_query`; no fallback result set is produced. -/
theorem search_empty_query_fails (cfg : SearchConfig) (hist : List RStr) (q : RStr)
    (exec : List SearchCriteria → Except TeselaError (List SearchResult))
    (hws : ∀ c ∈ q, isRustWhitespace c = true) :
    (searchOp cfg hist q exec).2 =
      Except.error (TeselaError.searchErr (chars "Empty search query")) := by
  have htrim : rustTrim q = [] := rustTrim_all_whitespace q hws
  unfold searchOp parseQuery
  rw [htrim]
  simp

/-- Witness for C5 at a whitespace-only query. -/
theorem search_empty_query_fails_witness :
    (searchOp defaultSearchConfig [] (chars "   ") (fun _ => Except.ok [])).2 =
      Except.error (TeselaError.searchErr (chars "Empty search query")) :=
  search_empty_query_fails defaultSearchConfig [] (chars "   ")
    (fun _ => Except.ok []) (by decide)

/-! ## C10: the query history is pushed before validation -/

/-- C10.  `search` appends the query to the history before validating it:
a whitespace-only query still fails with the Search error, yet the new
history is exactly the pushed one, it contains the rejected query, the
100-entry cap is maintained by dropping the oldest entry, and (for a fresh
engine and no stored tags) the rejected query is later offered by
`get_suggestions` for any sufficiently long strict prefix of it. -/
theorem search_history_push (cfg : SearchConfig) (hist : List RStr) (q : RStr)
    (exec : List SearchCriteria → Except TeselaError (List SearchResult))
    (hws : ∀ c ∈ q, isRustWhitespace c = true) :
    (searchOp cfg hist q exec).1 = pushHistory hist q ∧
    (searchOp cfg hist q exec).2 =
      Except.error (TeselaError.searchErr (chars "Empty search query")) ∧
    q ∈ (searchOp cfg hist q exec).1 ∧
    (hist.length ≤ 100 → (searchOp cfg hist q exec).1.length ≤ 100) ∧
    (hist.length = 100 → (searchOp cfg hist q exec).1 = hist.drop 1 ++ [q]) ∧
    (cfg.enableSuggestions = true → 1 ≤ cfg.maxSuggestions → hist = [] →
      ∀ p, 2 ≤ byteLen p → (toLower p).isPrefixOf (toLower q) = true → q ≠ p →
        q ∈ (getSuggestions cfg [] (searchOp cfg hist q exec).1 p).map
              (fun s => s.suggestion)) := by
  have hfst : (searchOp cfg hist q exec).1 = pushHistory hist q := by
    unfold searchOp
    cases parseQuery cfg q <;> rfl
  have hmemq : q ∈ pushHistory hist q := by
    unfold pushHistory
    by_cases hlen : (hist ++ [q]).length > 100
    · rw [if_pos hlen]
      have h1 : 1 ≤ hist.length := by
        simp at hlen; omega
      rw [List.drop_append_of_le_length h1]
      exact List.mem_append_right _ (List.mem_singleton.mpr rfl)
    · rw [if_neg hlen]
      exact List.mem_append_right _ (List.mem_singleton.mpr rfl)
  refine ⟨hfst, search_empty_query_fails cfg hist q exec hws, ?_, ?_, ?_, ?_⟩
  · rw [hfst]; exact hmemq
  · intro h100
    rw [hfst]
    unfold pushHistory
    by_cases hlen : (hist ++ [q]).length > 100
    · rw [if_pos hlen]
      simp
      simp at hlen
      omega
    · rw [if_neg hlen]
      simp at hlen ⊢
      omega
  · intro h100
    rw [hfst]
    unfold pushHistory
    have hlen : (hist ++ [q]).length > 100 := by simp [h100]
    rw [if_pos hlen]
    rw [List.drop_append_of_le_length (by omega)]
  · intro hen hmax hnil p hplen hpfx hqp
    subst hnil
    rw [hfst]
    have hpush : pushHistory [] q = [q] := by
      unfold pushHistory
      simp
    rw [hpush]
    unfold getSuggestions
    rw [if_neg (by simp [hen]; omega)]
    simp only [List.filterMap_nil, List.filterMap_cons, List.filterMap_nil]
    rw [if_pos ⟨hpfx, hqp⟩]
    simp only [List.nil_append]
    have hsort :
        sortByConfidence [(⟨q, SuggestionType.query, 7 / 10⟩ : SearchSuggestion)] =
          [(⟨q, SuggestionType.query, 7 / 10⟩ : SearchSuggestion)] := rfl
    rw [hsort]
    have htake :
        List.take cfg.maxSuggestions [(⟨q, SuggestionType.query, 7 / 10⟩ : SearchSuggestion)] =
          [(⟨q, SuggestionType.query, 7 / 10⟩ : SearchSuggestion)] :=
      List.take_of_length_le (by simpa using hmax)
    rw [htake]
    simp

/-- Witness for C10: on a fresh engine, a rejected three-space query is
still recorded and later suggested for its two-space prefix. -/
theorem search_history_push_witness :
    chars "   " ∈
      (getSuggestions defaultSearchConfig []
        ((searchOp defaultSearchConfig [] (chars "   ") (fun _ => Except.ok [])).1)
        (chars "  ")).map (fun s => s.suggestion) :=
  (search_history_push defaultSearchConfig [] (chars "   ") (fun _ => Except.ok [])
      (by decide)).2.2.2.2.2 rfl (by decide) rfl (chars "  ")
    (by decide) (by decide) (by decide)

/-! ## C4: the save/parse round trip -/

/-- Counterexample to C4 as stated.  For the note above — empty `content`
but body `"B"` and title `"A"` — saving and re-parsing succeeds but yields a
note whose body is empty and whose title is the filename stem, so neither
equals the original.  The round trip therefore does not hold for *every*
note. -/
theorem saveNote_roundtrip_counterexample :
    loadNote defaultStorageConfig (saveNote defaultStorageConfig emptyFs c4badNote)
        (joinPath defaultStorageConfig.mosaicRoot c4badNote.path) = Except.ok c4reparsed ∧
      c4reparsed.body ≠ c4badNote.body ∧ c4reparsed.title ≠ c4badNote.title := by
  refine ⟨rfl, by decide, by decide⟩

/-- C4, amended.  The round trip holds exactly for notes whose `content`
field is consistent with their stored `title`, `metadata.tags` and `body`
(that is, parsing `content` at the note's own path reproduces them — every
note obtained from `parse_note`/`load_note` is of this form): for such a
note, `save_note` followed by reading the produced file back yields equal
title, tags and body. -/
theorem saveNote_parseNote_roundtrip (cfg : StorageConfig) (fs : FsState) (note : Note)
    (reparsed : Note)
    (h : parseNote cfg (joinPath cfg.mosaicRoot note.path) note.content = Except.ok reparsed)
    (ht : reparsed.title = note.title)
    (htg : reparsed.metadata.tags = note.metadata.tags)
    (hb : reparsed.body = note.body) :
    loadNote cfg (saveNote cfg fs note) (joinPath cfg.mosaicRoot note.path) =
        Except.ok reparsed ∧
      reparsed.title = note.title ∧ reparsed.metadata.tags = note.metadata.tags ∧
      reparsed.body = note.body := by
  refine ⟨?_, ht, htg, hb⟩
  unfold loadNote saveNote
  simp only [fsRead_fsWrite_self]
  exact h

/-- Witness for the amended C4 at a concrete parse-consistent note. -/
theorem saveNote_parseNote_roundtrip_witness :
    loadNote defaultStorageConfig (saveNote defaultStorageConfig emptyFs c4goodNote)
        (joinPath defaultStorageConfig.mosaicRoot c4goodNote.path) = Except.ok c4goodNote ∧
      c4goodNote.title = c4goodNote.title ∧
      c4goodNote.metadata.tags = c4goodNote.metadata.tags ∧
      c4goodNote.body = c4goodNote.body :=
  saveNote_parseNote_roundtrip defaultStorageConfig emptyFs c4goodNote
    c4goodNote (by decide) rfl rfl rfl

/-! ## C9: totality of highlighting and match location -/

/-- Lowercasing an ASCII character yields a single ASCII character. -/
theorem lowerChar_ascii (c : Char) (h : c.toNat < 128) :
    ∃ d, lowerChar c = [d] ∧ d.toNat < 128 := by
  unfold lowerChar
  split
  · exact absurd h (by decide)
  all_goals try exact ⟨_, rfl, by decide⟩
  exact ⟨_, rfl, h⟩

/-- Lowercasing an ASCII string preserves ASCII-ness and length. -/
theorem toLower_ascii (s : RStr) (h : ∀ c ∈ s, c.toNat < 128) :
    (∀ d ∈ toLower s, d.toNat < 128) ∧ (toLower s).length = s.length := by
  induction s with
  | nil => simp [toLower]
  | cons c t ih =>
    obtain ⟨d, hd, hdlt⟩ := lowerChar_ascii c (h c (List.mem_cons_self c t))
    have ih2 := ih (fun x hx => h x (List.mem_cons_of_mem c hx))
    constructor
    · intro e he
      rw [toLower, List.flatMap_cons, hd] at he
      rcases List.mem_append.mp he with h1 | h2
      · rw [List.mem_singleton.mp h1]; exact hdlt
      · exact ih2.1 e h2
    · have hlen := ih2.2
      simp only [toLower, List.flatMap_cons, hd, List.length_append, List.length_cons,
        List.length_nil] at hlen ⊢
      omega

/-- ASCII characters occupy one UTF-8 byte. -/
theorem utf8Len_one (c : Char) (h : c.toNat < 128) : utf8Len c = 1 := by
  unfold utf8Len
  rw [if_pos h]

/-- The byte length of an ASCII string is its character count. -/
theorem byteLen_ascii (s : RStr) (h : ∀ c ∈ s, c.toNat < 128) : byteLen s = s.length := by
  induction s with
  | nil => rfl
  | cons c t ih =>
    rw [byteLen, List.map_cons, List.sum_cons, utf8Len_one c (h c (List.mem_cons_self c t))]
    have := ih (fun x hx => h x (List.mem_cons_of_mem c hx))
    rw [byteLen] at this
    simp only [List.length_cons, this]
    omega

/-- Byte-slicing an ASCII string never panics: taking. -/
theorem takeBytes_ascii (s : RStr) (n : Nat) (h : ∀ c ∈ s, c.toNat < 128)
    (hn : n ≤ s.length) : takeBytes s n = some (s.take n) := by
  induction s generalizing n with
  | nil =>
    cases n with
    | zero => rfl
    | succ m => simp at hn
  | cons c t ih =>
    cases n with
    | zero => rfl
    | succ m =>
      have h1 : utf8Len c = 1 := utf8Len_one c (h c (List.mem_cons_self c t))
      rw [takeBytes, if_pos (by omega), h1]
      have hm : m + 1 - 1 = m := by omega
      rw [hm, ih m (fun x hx => h x (List.mem_cons_of_mem c hx)) (by simpa using hn)]
      rfl

/-- Byte-slicing an ASCII string never panics: dropping. -/
theorem dropBytes_ascii (s : RStr) (n : Nat) (h : ∀ c ∈ s, c.toNat < 128)
    (hn : n ≤ s.length) : dropBytes s n = some (s.drop n) := by
  induction s generalizing n with
  | nil =>
    cases n with
    | zero => rfl
    | succ m => simp at hn
  | cons c t ih =>
    cases n with
    | zero => rfl
    | succ m =>
      have h1 : utf8Len c = 1 := utf8Len_one c (h c (List.mem_cons_self c t))
      rw [dropBytes, if_pos (by omega), h1]
      have hm : m + 1 - 1 = m := by omega
      rw [hm]
      exact ih m (fun x hx => h x (List.mem_cons_of_mem c hx)) (by simpa using hn)

/-- A successful substring search splits the haystack around the pattern,
and the returned index is the byte length of the part before it. -/
theorem findSubBytes_decomp (hay pat : RStr) (k : Nat)
    (h : findSubBytes hay pat = some k) :
    ∃ pre suf, hay = pre ++ pat ++ suf ∧ k = byteLen pre := by
  induction hay generalizing k with
  | nil =>
    rw [findSubBytes] at h
    by_cases hp : pat.isEmpty
    · rw [if_pos hp] at h
      cases h
      exact ⟨[], [], by simp [List.isEmpty_iff.mp hp], rfl⟩
    · rw [if_neg hp] at h
      cases h
  | cons c rest ih =>
    rw [findSubBytes] at h
    by_cases hp : pat.isPrefixOf (c :: rest)
    · rw [if_pos hp] at h
      cases h
      obtain ⟨suf, hsuf⟩ := (List.isPrefixOf_iff_prefix.mp hp)
      exact ⟨[], suf, by simp [hsuf], rfl⟩
    · rw [if_neg hp] at h
      cases hm : findSubBytes rest pat with
      | none => rw [hm] at h; cases h
      | some m =>
        rw [hm] at h
        simp at h
        obtain ⟨pre, suf, hcat, hk⟩ := ih m hm
        refine ⟨c :: pre, suf, by simp [hcat], ?_⟩
        rw [byteLen, List.map_cons, List.sum_cons, ← h, hk]
        rfl

/-- C9, amended.  `find_matches_in_note` is total (it slices nothing), and
`highlight_matches` returns normally — all byte indices it uses to slice the
original content fall on character boundaries — whenever content and query
are ASCII.  The claim's inclusion of non-ASCII content fails: see the
counterexample, where the byte offsets found in the lowercased content fall
outside/inside characters of the original and the slice panics. -/
theorem highlightMatches_ascii_total (content q : RStr)
    (hc : ∀ c ∈ content, c.toNat < 128) (hq : ∀ c ∈ q, c.toNat < 128) :
    (highlightMatches content q).isSome = true := by
  unfold highlightMatches
  cases hfind : findSubBytes (toLower content) (toLower q) with
  | none => rfl
  | some start =>
    obtain ⟨pre, suf, hcat, hk⟩ := findSubBytes_decomp _ _ _ hfind
    have hlc := toLower_ascii content hc
    have hlq := toLower_ascii q hq
    have hpre_ascii : ∀ c ∈ pre, c.toNat < 128 := fun c hx =>
      hlc.1 c (by rw [hcat]; exact List.mem_append_left _ (List.mem_append_left _ hx))
    have hlenc : (toLower content).length = content.length := hlc.2
    have hlenq : (toLower q).length = q.length := hlq.2
    have hsplit : pre.length + ((toLower q).length + suf.length) = (toLower content).length := by
      rw [hcat]; simp [List.length_append]
    have hstart : start = pre.length := by rw [hk, byteLen_ascii pre hpre_ascii]
    have h1 : start ≤ content.length := by omega
    have hbq : byteLen q = q.length := byteLen_ascii q hq
    have h2 : start + byteLen q ≤ content.length := by omega
    have hdascii : ∀ c ∈ content.drop start, c.toNat < 128 := fun c hx =>
      hc c (List.mem_of_mem_drop hx)
    have hstop : start + byteLen q - start = byteLen q := by omega
    have hdlen : byteLen q ≤ (content.drop start).length := by rw [List.length_drop]; omega
    simp only [takeBytes_ascii content start hc h1, dropBytes_ascii content start hc h1,
      hstop, takeBytes_ascii _ _ hdascii hdlen, dropBytes_ascii _ _ hdascii hdlen]
    rfl

/-- Counterexample to C9 as stated: for the content `İabc` (whose lowercase
form is one byte longer) and query `abc`, `highlight_matches` slices the
original content at byte indices taken from the lowercased content; the end
index 6 exceeds the content's byte length 5, so the Rust slice panics —
modelled as `none`.  The functions are therefore not total on non-ASCII
input. -/
theorem highlightMatches_panic_counterexample :
    highlightMatches (chars "İabc") (chars "abc") = none := by decide

/-- Witness for the amended C9 at concrete ASCII strings. -/
theorem highlightMatches_ascii_total_witness :
    (highlightMatches (chars "This is a test") (chars "test")).isSome = true :=
  highlightMatches_ascii_total (chars "This is a test") (chars "test")
    (by decide) (by decide)

/-! ## C7: match reporting -/

/-- C7, amended.  Every Body match of `find_matches_in_note` comes from a
line (0-based index `i`) whose lowercase form contains the lowercase query
and carries the 1-BASED line number `i + 1` (the source stores
`line_number + 1`, not the 0-based index the claim states), the byte offset
of the query within the lowercased line, an end offset adding the query's
byte length, and one line of context before and after; conversely every
matching line produces such an entry.  Title and Tag matches carry line
number 0 and start offset 0, with the end offset the byte length of the
matched text. -/
theorem findMatches_reporting (note : Note) (q : RStr) :
    (∀ m ∈ findMatchesInNote note q,
      (m.matchType = MatchType.Body →
        ∃ i, (rustLines note.body)[i]? = some m.content ∧
          m.lineNumber = i + 1 ∧
          containsSub (toLower m.content) (toLower q) = true ∧
          m.startOffset = (findSubBytes (toLower m.content) (toLower q)).getD 0 ∧
          m.endOffset = m.startOffset + byteLen q ∧
          m.contextBefore = (if i = 0 then [] else (rustLines note.body).getD (i - 1) []) ∧
          m.contextAfter =
            (if i + 1 < (rustLines note.body).length then (rustLines note.body).getD (i + 1) []
             else [])) ∧
      (m.matchType = MatchType.Title →
        m.lineNumber = 0 ∧ m.startOffset = 0 ∧ m.content = note.title ∧
          m.endOffset = byteLen note.title) ∧
      (m.matchType = MatchType.Tag →
        m.lineNumber = 0 ∧ m.startOffset = 0 ∧ m.content ∈ note.metadata.tags ∧
          m.endOffset = byteLen m.content)) ∧
    (∀ i line, (rustLines note.body)[i]? = some line →
      containsSub (toLower line) (toLower q) = true →
      ∃ m ∈ findMatchesInNote note q,
        m.matchType = MatchType.Body ∧ m.lineNumber = i + 1 ∧ m.content = line) := by
  constructor
  · intro m hm
    unfold findMatchesInNote at hm
    rcases List.mem_append.mp hm with hm1 | hm2
    · rcases List.mem_append.mp hm1 with hmt | hmb
      · -- title part
        by_cases hct : containsSub (toLower note.title) (toLower q) = true
        · rw [if_pos hct] at hmt
          rw [List.mem_singleton.mp hmt]
          refine ⟨(by intro hbody; cases hbody), fun _ => ⟨rfl, rfl, rfl, rfl⟩,
            (by intro htag; cases htag)⟩
        · rw [if_neg hct] at hmt
          cases hmt
      · -- body part
        unfold bodyMatches at hmb
        obtain ⟨p, hp, hcond⟩ := List.mem_filterMap.mp hmb
        obtain ⟨i, line⟩ := p
        have hgetl : (rustLines note.body)[i]? = some line :=
          List.mk_mem_enum_iff_getElem?.mp hp
        by_cases hcl : containsSub (toLower line) (toLower q) = true
        · rw [if_pos hcl] at hcond
          simp only [Option.some_inj] at hcond
          subst hcond
          refine ⟨fun _ => ⟨i, hgetl, rfl, hcl, rfl, rfl, ?_, ?_⟩,
            (by intro h; cases h), (by intro h; cases h)⟩
          · by_cases h0 : i = 0
            · simp [h0]
            · have : i > 0 := Nat.pos_of_ne_zero h0
              simp only [if_neg h0, if_pos this]
          · obtain ⟨hilen, -⟩ := List.getElem?_eq_some.mp hgetl
            by_cases hlast : i < (rustLines note.body).length - 1
            · rw [if_pos hlast, if_pos (Nat.add_lt_of_lt_sub hlast)]
            · rw [if_neg hlast, if_neg (fun hc => hlast (Nat.lt_sub_of_add_lt hc))]
        · rw [if_neg hcl] at hcond
          cases hcond
    · -- tag part
      obtain ⟨tag, htag, hcond⟩ := List.mem_filterMap.mp hm2
      by_cases hct : containsSub (toLower tag) (toLower q) = true
      · rw [if_pos hct] at hcond
        simp only [Option.some_inj] at hcond
        subst hcond
        exact ⟨(by intro h; cases h), (by intro h; cases h), fun _ => ⟨rfl, rfl, htag, rfl⟩⟩
      · rw [if_neg hct] at hcond
        cases hcond
  · intro i line hget hcontains
    refine ⟨⟨MatchType.Body, line, i + 1, (findSubBytes (toLower line) (toLower q)).getD 0,
        (findSubBytes (toLower line) (toLower q)).getD 0 + byteLen q,
        (if i > 0 then (rustLines note.body).getD (i - 1) [] else []),
        (if i < (rustLines note.body).length - 1 then (rustLines note.body).getD (i + 1) []
         else [])⟩, ?_, rfl, rfl, rfl⟩
    unfold findMatchesInNote
    refine List.mem_append.mpr (Or.inl (List.mem_append.mpr (Or.inr ?_)))
    unfold bodyMatches
    refine List.mem_filterMap.mpr ⟨(i, line), List.mk_mem_enum_iff_getElem?.mpr hget, ?_⟩
    rw [if_pos hcontains]

/-- Counterexample to C7 as stated: the single body match, which is on the
0-based line 0, is reported with line number 1 — the source pushes
`line_number + 1` — so per-line matches do not carry 0-based line
numbers. -/
theorem findMatches_line_number_counterexample :
    (findMatchesInNote c7note (chars "hello")).map (fun m => (m.matchType, m.lineNumber)) =
        [(MatchType.Body, 1)] ∧
      (findMatchesInNote c7note (chars "hello")).map (fun m => m.lineNumber) ≠ [0] := by
  exact ⟨by decide, by decide⟩

/-- Witness for the amended C7: the completeness direction applied to the
concrete matching line yields a match. -/
theorem findMatches_reporting_witness :
    1 ≤ (findMatchesInNote c7note (chars "hello")).length := by
  obtain ⟨m, hm, -⟩ := (findMatches_reporting c7note (chars "hello")).2 0 (chars "hello")
    (by decide) (by decide)
  exact List.length_pos.mpr (List.ne_nil_of_mem hm)

/-! ## C8: link extraction -/

/-- Membership in the `extract_links` event loop: a link is produced exactly
for each `Start(Link)` event, carrying that event's index (offset by the
running position) — not the ordinal of the link among links. -/
theorem extractLinksGo_mem (events : List MdEvent) (n : Nat) (l : Link) :
    l ∈ extractLinksGo n events ↔
      ∃ i dest title, events[i]? = some (MdEvent.start (MdTag.link dest title)) ∧
        l = { linkType := classifyLink dest, target := dest, text := title, position := n + i } := by
  induction events generalizing n with
  | nil => simp [extractLinksGo]
  | cons e rest ih =>
    cases e with
    | start t =>
      cases t with
      | paragraph =>
        rw [show extractLinksGo n (MdEvent.start MdTag.paragraph :: rest) =
            extractLinksGo (n + 1) rest from rfl, ih (n + 1)]
        constructor
        · rintro ⟨i, dest, title, hget, hl⟩
          exact ⟨i + 1, dest, title, by simpa using hget, by rw [hl]; congr 1; omega⟩
        · rintro ⟨i, dest, title, hget, hl⟩
          cases i with
          | zero => simp at hget
          | succ j =>
            refine ⟨j, dest, title, by simpa using hget, by rw [hl]; congr 1; omega⟩
      | link dest0 title0 =>
        rw [show extractLinksGo n (MdEvent.start (MdTag.link dest0 title0) :: rest) =
            { linkType := classifyLink dest0, target := dest0, text := title0, position := n } ::
              extractLinksGo (n + 1) rest from rfl]
        rw [List.mem_cons, ih (n + 1)]
        constructor
        · rintro (hl | ⟨i, dest, title, hget, hl⟩)
          · exact ⟨0, dest0, title0, by simp, by simpa using hl⟩
          · exact ⟨i + 1, dest, title, by simpa using hget, by rw [hl]; congr 1; omega⟩
        · rintro ⟨i, dest, title, hget, hl⟩
          cases i with
          | zero =>
            simp at hget
            left
            rw [hl, hget.1, hget.2]
            simp
          | succ j =>
            right
            exact ⟨j, dest, title, by simpa using hget, by rw [hl]; congr 1; omega⟩
    | stop t =>
      rw [show extractLinksGo n (MdEvent.stop t :: rest) = extractLinksGo (n + 1) rest from rfl,
        ih (n + 1)]
      constructor
      · rintro ⟨i, dest, title, hget, hl⟩
        exact ⟨i + 1, dest, title, by simpa using hget, by rw [hl]; congr 1; omega⟩
      · rintro ⟨i, dest, title, hget, hl⟩
        cases i with
        | zero => simp at hget
        | succ j =>
          exact ⟨j, dest, title, by simpa using hget, by rw [hl]; congr 1; omega⟩
    | text s =>
      rw [show extractLinksGo n (MdEvent.text s :: rest) = extractLinksGo (n + 1) rest from rfl,
        ih (n + 1)]
      constructor
      · rintro ⟨i, dest, title, hget, hl⟩
        exact ⟨i + 1, dest, title, by simpa using hget, by rw [hl]; congr 1; omega⟩
      · rintro ⟨i, dest, title, hget, hl⟩
        cases i with
        | zero => simp at hget
        | succ j =>
          exact ⟨j, dest, title, by simpa using hget, by rw [hl]; congr 1; omega⟩

/-- A non-empty prefix determines the head of the string. -/
theorem isPrefixOf_head (p t : RStr) (c : Char) (hp : p.isPrefixOf t = true)
    (hc : p.head? = some c) : t.head? = some c := by
  cases p with
  | nil => simp at hc
  | cons c' p' =>
    cases t with
    | nil => simp [List.isPrefixOf] at hp
    | cons d t' =>
      simp [List.isPrefixOf] at hp
      simp at hc
      simp [← hc, hp.1]

/-- C8, amended.  Every link extracted from a body is classified by its
target exactly as the claim states (`http(s)://` → External,
`attachment:`/`file:` → Attachment, everything else → Internal), and
`extract_links` is a pure function of the body text; but a link's
`position` is the index of its `Start(Link)` event in the markdown event
stream — the loop increments the counter on *every* event — not the ordinal
of the link among the extracted links. -/
theorem extractLinks_classification (content : RStr) :
    (∀ l ∈ extractLinks content,
      (mdEvents content)[l.position]? = some (MdEvent.start (MdTag.link l.target l.text)) ∧
      l.linkType = classifyLink l.target ∧
      (((chars "http://").isPrefixOf l.target = true ∨
          (chars "https://").isPrefixOf l.target = true) →
        l.linkType = LinkType.External) ∧
      (((chars "attachment:").isPrefixOf l.target = true ∨
          (chars "file:").isPrefixOf l.target = true) →
        l.linkType = LinkType.AttachmentLink) ∧
      ((¬ ((chars "http://").isPrefixOf l.target = true ∨
           (chars "https://").isPrefixOf l.target = true)) →
       (¬ ((chars "attachment:").isPrefixOf l.target = true ∨
           (chars "file:").isPrefixOf l.target = true)) →
        l.linkType = LinkType.Internal)) ∧
    (∀ i dest title,
      (mdEvents content)[i]? = some (MdEvent.start (MdTag.link dest title)) →
      ({ linkType := classifyLink dest, target := dest, text := title, position := i } : Link) ∈
        extractLinks content) := by
  constructor
  · intro l hl
    obtain ⟨i, dest, title, hget, heq⟩ :=
      (extractLinksGo_mem (mdEvents content) 0 l).mp hl
    subst heq
    simp only [Nat.zero_add]
    refine ⟨hget, (by trivial), ?_, ?_, ?_⟩
    · intro hhttp
      unfold classifyLink
      rw [if_pos hhttp]
    · intro hatt
      unfold classifyLink
      rw [if_neg ?hno, if_pos hatt]
      case hno =>
        intro hhttp
        have hh : dest.head? = some 'h' := by
          rcases hhttp with h | h
          · exact isPrefixOf_head _ _ _ h (by decide)
          · exact isPrefixOf_head _ _ _ h (by decide)
        rcases hatt with h | h
        · have ha : dest.head? = some 'a' := isPrefixOf_head _ _ _ h (by decide)
          rw [hh] at ha
          simp at ha
        · have hf : dest.head? = some 'f' := isPrefixOf_head _ _ _ h (by decide)
          rw [hh] at hf
          simp at hf
    · intro hno1 hno2
      unfold classifyLink
      rw [if_neg hno1, if_neg hno2]
  · intro i dest title hget
    rw [show extractLinks content = extractLinksGo 0 (mdEvents content) from rfl]
    exact (extractLinksGo_mem (mdEvents content) 0 _).mpr
      ⟨i, dest, title, hget, by simp⟩

/-- Counterexample to C8 as stated: for the body `[a](x)` the single (0th)
extracted link has `position = 1` — the index of its `Start(Link)` event
after `Start(Paragraph)` — not 0 as the ordinal-position claim requires. -/
theorem extractLinks_position_counterexample :
    extractLinks (chars "[a](x)") =
        [{ linkType := LinkType.Internal, target := chars "x", text := [], position := 1 }] ∧
      (extractLinks (chars "[a](x)")).map (fun l => l.position) ≠ [0] := by
  exact ⟨by decide, by decide⟩

/-- Witness for the amended C8 at the concrete body `[a](x)`. -/
theorem extractLinks_classification_witness :
    ({ linkType := LinkType.Internal, target := chars "x", text := [], position := 1 } : Link) ∈
      extractLinks (chars "[a](x)") :=
  (extractLinks_classification (chars "[a](x)")).2 1 (chars "x") [] (by decide)

/-! ## C6: glob-exclusion semantics -/

/-- Tokens of the exclusion-pattern language as the specification describes
it. -/

theorem splitOnChar_no_sep (a : Char) (s : RStr) (h : a ∉ s) : splitOnChar a s = [s] := by
  induction s with
  | nil => rfl
  | cons c rest ih =>
    have hc : c ≠ a := fun he => h (he ▸ List.mem_cons_self c rest)
    have hrest : a ∉ rest := fun hm => h (List.mem_cons_of_mem c hm)
    rw [splitOnChar, if_neg hc, ih hrest]

theorem splitOnChar_pair (a : Char) (pre suf : RStr) (h1 : a ∉ pre) (h2 : a ∉ suf) :
    splitOnChar a (pre ++ a :: suf) = [pre, suf] := by
  induction pre with
  | nil =>
    rw [List.nil_append, splitOnChar, if_pos rfl, splitOnChar_no_sep a suf h2]
  | cons c pre' ih =>
    have hc : c ≠ a := fun he => h1 (he ▸ List.mem_cons_self c pre')
    have hpre : a ∉ pre' := fun hm => h1 (List.mem_cons_of_mem c hm)
    rw [List.cons_append, splitOnChar, if_neg hc, ih hpre]

theorem splitOnDoubleStar_cons_ne (c : Char) (rest : RStr) (hc : c ≠ '*') :
    splitOnDoubleStar (c :: rest) = consHead c (splitOnDoubleStar rest) := by
  rw [splitOnDoubleStar.eq_def]
  split
  · rename_i rest' heq
    rw [List.cons.injEq] at heq
    exact absurd heq.1 hc
  · rename_i c' rest' heq
    rw [List.cons.injEq] at heq
    rw [heq.1, heq.2]
  · rename_i heq
    cases heq

theorem splitOnDoubleStar_no_star (s : RStr) (h : '*' ∉ s) : splitOnDoubleStar s = [s] := by
  induction s with
  | nil => rfl
  | cons c rest ih =>
    have hc : c ≠ '*' := fun he => h (he ▸ List.mem_cons_self c rest)
    have hrest : '*' ∉ rest := fun hm => h (List.mem_cons_of_mem c hm)
    rw [splitOnDoubleStar_cons_ne c rest hc, ih hrest]
    rfl

theorem splitOnDoubleStar_pair (pre suf : RStr) (h1 : '*' ∉ pre) (h2 : '*' ∉ suf) :
    splitOnDoubleStar (pre ++ '*' :: '*' :: suf) = [pre, suf] := by
  induction pre with
  | nil =>
    rw [List.nil_append,
      show splitOnDoubleStar ('*' :: '*' :: suf) = [] :: splitOnDoubleStar suf from rfl,
      splitOnDoubleStar_no_star suf h2]
  | cons c pre' ih =>
    have hc : c ≠ '*' := fun he => h1 (he ▸ List.mem_cons_self c pre')
    have hpre : '*' ∉ pre' := fun hm => h1 (List.mem_cons_of_mem c hm)
    rw [List.cons_append, splitOnDoubleStar_cons_ne c _ hc, ih hpre]
    rfl

theorem findSubBytes_doublestar_no_star (s : RStr) (h : '*' ∉ s) :
    findSubBytes s (chars "**") = none := by
  induction s with
  | nil => rfl
  | cons c rest ih =>
    have hc : c ≠ '*' := fun he => h (he ▸ List.mem_cons_self c rest)
    have hrest : '*' ∉ rest := fun hm => h (List.mem_cons_of_mem c hm)
    rw [findSubBytes, if_neg ?nopre, ih hrest]
    · rfl
    case nopre =>
      intro hp
      have := isPrefixOf_head (chars "**") (c :: rest) '*' hp (by decide)
      simp at this
      exact hc this

theorem findSubBytes_doublestar_single (pre suf : RStr) (h1 : '*' ∉ pre) (h2 : '*' ∉ suf) :
    findSubBytes (pre ++ '*' :: suf) (chars "**") = none := by
  induction pre with
  | nil =>
    rw [List.nil_append, findSubBytes, if_neg ?nopre,
      findSubBytes_doublestar_no_star suf h2]
    · rfl
    case nopre =>
      intro hp
      have hp2 : (chars "*").isPrefixOf suf = true := by
        cases suf with
        | nil => simp [chars, List.isPrefixOf] at hp
        | cons d t =>
          simp [chars, List.isPrefixOf] at hp ⊢
          exact hp
      have := isPrefixOf_head (chars "*") suf '*' hp2 (by decide)
      cases suf with
      | nil => simp at this
      | cons d t =>
        simp at this
        exact h2 (this ▸ List.mem_cons_self d t)
  | cons c pre' ih =>
    have hc : c ≠ '*' := fun he => h1 (he ▸ List.mem_cons_self c pre')
    have hpre : '*' ∉ pre' := fun hm => h1 (List.mem_cons_of_mem c hm)
    rw [List.cons_append, findSubBytes, if_neg ?nopre, ih hpre]
    · rfl
    case nopre =>
      intro hp
      have := isPrefixOf_head (chars "**") _ '*' hp (by decide)
      simp at this
      exact hc this

theorem findSubBytes_isSome_append (pre rest pat : RStr) (h : pat.isPrefixOf rest = true) :
    (findSubBytes (pre ++ rest) pat).isSome = true := by
  induction pre with
  | nil =>
    rw [List.nil_append]
    cases rest with
    | nil =>
      cases pat with
      | nil => rfl
      | cons pc pt => simp [List.isPrefixOf] at h
    | cons c t =>
      rw [findSubBytes, if_pos h]
      rfl
  | cons c pre' ih =>
    rw [List.cons_append, findSubBytes]
    by_cases hp : pat.isPrefixOf (c :: (pre' ++ rest))
    · rw [if_pos hp]; rfl
    · rw [if_neg hp]
      cases hm : findSubBytes (pre' ++ rest) pat with
      | none => rw [hm] at ih; simp at ih
      | some m => simp

theorem globMatch_single_star_eq (pre suf text : RStr) (h1 : '*' ∉ pre) (h2 : '*' ∉ suf) :
    globMatch (pre ++ '*' :: suf) text = (pre.isPrefixOf text && suf.isSuffixOf text) := by
  have hcs : containsSub (pre ++ '*' :: suf) (chars "**") = false := by
    unfold containsSub
    rw [findSubBytes_doublestar_single pre suf h1 h2]
    rfl
  have hcont : (pre ++ '*' :: suf).contains '*' = true := by
    simp
  unfold globMatch
  rw [hcs]
  simp only [Bool.false_eq_true, if_false]
  unfold globMatch.globMatchSingle
  rw [hcont]
  simp only [if_true]
  rw [splitOnChar_pair '*' pre suf h1 h2]

theorem mem_of_head?_eq (s : RStr) (c : Char) (h : s.head? = some c) : c ∈ s := by
  cases s with
  | nil => simp at h
  | cons d t =>
    simp at h
    exact h ▸ List.mem_cons_self d t

theorem globMatch_double_star_eq (pre suf text : RStr) (h1 : '*' ∉ pre) (h2 : '*' ∉ suf) :
    globMatch (pre ++ '*' :: '*' :: suf) text =
      (pre.isPrefixOf text &&
        (if suf.head? = some '/' then suf.tail else suf).isSuffixOf text) := by
  have hcs : containsSub (pre ++ '*' :: '*' :: suf) (chars "**") = true := by
    unfold containsSub
    exact findSubBytes_isSome_append pre ('*' :: '*' :: suf) (chars "**")
      (by simp [chars, List.isPrefixOf])
  have hstar : (if suf.head? = some '/' then suf.tail else suf).head? ≠ some '*' := by
    by_cases hh : suf.head? = some '/'
    · rw [if_pos hh]
      intro hc
      exact h2 (List.mem_of_mem_tail (mem_of_head?_eq _ _ hc))
    · rw [if_neg hh]
      intro hc
      exact h2 (mem_of_head?_eq _ _ hc)
  unfold globMatch
  rw [hcs]
  simp only [if_true]
  rw [splitOnDoubleStar_pair pre suf h1 h2]
  show (if List.isPrefixOf pre text = true then
          if (if suf.head? = some '/' then suf.tail else suf).head? = some '*' then
            (if suf.head? = some '/' then suf.tail else suf).tail.isSuffixOf text
          else (if suf.head? = some '/' then suf.tail else suf).isSuffixOf text
        else false) = _
  by_cases hpre : pre.isPrefixOf text
  · rw [if_pos hpre, if_neg hstar]
    simp [hpre]
  · rw [if_neg hpre]
    simp [hpre]

theorem shouldIndex_exclusion_iff (fi : FileInfo) (cfg : IndexerConfig)
    (hfile : fi.isFile = true)
    (hext : extensionOf fi.path = some (chars "md") ∨
      extensionOf fi.path = some (chars "markdown"))
    (hhid : cfg.indexHidden = true ∨ (fileName fi.path).head? ≠ some '.')
    (hsize : fi.size ≤ cfg.maxFileSize) :
    shouldIndexFileWithConfig fi cfg = false ↔
      ∃ p ∈ cfg.excludePatterns, globMatch p fi.path = true := by
  have h3 : ¬ (¬ cfg.indexHidden = true ∧ (fileName fi.path).head? = some '.') := by
    rcases hhid with h | h
    · intro hc; exact hc.1 h
    · intro hc; exact h hc.2
  unfold shouldIndexFileWithConfig
  rw [if_neg (by simp [hfile]), if_neg (not_not_intro hext), if_neg h3,
    if_neg (by omega)]
  simp [List.any_eq_true]

/-- C6, amended.  A path is excluded by `should_index_file` (once the
file/extension/hidden/size gates pass) exactly when some configured pattern
matches it under `glob_match`; but `glob_match`'s wildcards ignore path
segments entirely: a single-`*` pattern matches any text with the pattern's
literal prefix and suffix — the `*` matching across `/` separators — and a
`**` pattern likewise reduces to a literal prefix/suffix test (with a
leading `/` of the suffix dropped). -/
theorem glob_exclusion_semantics :
    (∀ (fi : FileInfo) (cfg : IndexerConfig),
      fi.isFile = true →
      (extensionOf fi.path = some (chars "md") ∨
        extensionOf fi.path = some (chars "markdown")) →
      (cfg.indexHidden = true ∨ (fileName fi.path).head? ≠ some '.') →
      fi.size ≤ cfg.maxFileSize →
      (shouldIndexFileWithConfig fi cfg = false ↔
        ∃ p ∈ cfg.excludePatterns, globMatch p fi.path = true)) ∧
    (∀ pre suf text : RStr, '*' ∉ pre → '*' ∉ suf →
      globMatch (pre ++ '*' :: suf) text =
        (pre.isPrefixOf text && suf.isSuffixOf text)) ∧
    (∀ pre suf text : RStr, '*' ∉ pre → '*' ∉ suf →
      globMatch (pre ++ '*' :: '*' :: suf) text =
        (pre.isPrefixOf text &&
          (if suf.head? = some '/' then suf.tail else suf).isSuffixOf text)) :=
  ⟨shouldIndex_exclusion_iff, globMatch_single_star_eq, globMatch_double_star_eq⟩

/-- Counterexample to C6 as stated: under the claimed semantics the single
`*` of `notes/a*.md` cannot match across the `/` in `notes/a/b.md`, so no
configured pattern matches and the path must not be excluded; but the code's
`glob_match` reduces the pattern to a prefix/suffix test that does match, and
`should_index_file` excludes the path. -/
theorem globMatch_counterexample :
    shouldIndexFileWithConfig c6fi c6cfg = false ∧
      specGlobMatch (chars "notes/a*.md") (chars "notes/a/b.md") = false ∧
      globMatch (chars "notes/a*.md") (chars "notes/a/b.md") = true := by
  exact ⟨by decide, by decide, by decide⟩

/-- Witness for the amended C6: the single-star equation at a concrete
pattern and path whose star spans a separator. -/
theorem glob_exclusion_semantics_witness :
    globMatch (chars "a" ++ '*' :: chars ".tmp") (chars "a/b.tmp") =
      ((chars "a").isPrefixOf (chars "a/b.tmp") &&
        (chars ".tmp").isSuffixOf (chars "a/b.tmp")) :=
  glob_exclusion_semantics.2.1 (chars "a") (chars ".tmp") (chars "a/b.tmp")
    (by decide) (by decide)

end Tesela
